import Mathlib

/-!
Verification of the frame-aggregation-and-assembly subsystem of the
Gussian repository (`utils/video_syn.py`), as a shallow embedding in Lean.

Filenames are `List Char` / `String`; the filesystem is a pair of oracles
(`fs : String → Option (List String)` for directory listings,
`read : String → Option Image` for image decoding).  Python's in-place
`list.sort` is modelled by an explicit stable insertion sort, and the
encoder's write loop by a recursive function producing the list of frames
written to the output video.
-/

namespace VideoSyn

/-- The value of a decimal digit string, as computed by Python's `int`. -/
def digitsVal (ds : List Char) : Nat :=
  ds.foldl (fun n c => 10 * n + (c.toNat - 48)) 0

/-- Strip a literal from the front of a character list; `none` when the
list does not start with the literal.  Models matching a literal part of
the regular expression `(pano_camera\d+)_frame_(\d+)`. -/
def dropLit : List Char → List Char → Option (List Char)
  | [], s => some s
  | _ :: _, [] => none
  | l :: ls, c :: cs => if c = l then dropLit ls cs else none

/-- Split off the maximal leading run of decimal digits, as the greedy
`\d+` (restricted to ASCII digits) does. -/
def takeDigits : List Char → List Char × List Char
  | [] => ([], [])
  | c :: cs =>
    if c.isDigit then
      let p := takeDigits cs
      (c :: p.1, p.2)
    else ([], c :: cs)

/-- Try to match `(pano_camera\d+)_frame_(\d+)` at the head of the list,
returning the two captured digit runs. -/
def matchAt (s : List Char) : Option (List Char × List Char) :=
  (dropLit "pano_camera".data s).bind fun r1 =>
    let p1 := takeDigits r1
    if p1.1 = [] then none else
      (dropLit "_frame_".data p1.2).bind fun r3 =>
        let p2 := takeDigits r3
        if p2.1 = [] then none else some (p1.1, p2.1)

/-- Leftmost search for the pattern, as `re.search` does: try each start
position from the left, return the first successful match. -/
def searchPat : List Char → Option (List Char × List Char)
  | [] => none
  | c :: cs =>
    match matchAt (c :: cs) with
    | some r => some r
    | none => searchPat cs

/-- Model of `parse_filename` from `utils/video_syn.py`: `re.search` for
`(pano_camera\d+)_frame_(\d+)`; on a match return the group key
`pano_camera<digits>` and `int` of the frame digits, else no key. -/
def parse_filename (filename : String) : Option (String × Nat) :=
  (searchPat filename.data).map fun r =>
    (String.mk ("pano_camera".data ++ r.1), digitsVal r.2)

/-! ### Frame catalog builder (`get_grouped_images`) -/

/-- The recognized image extensions of `get_grouped_images`. -/
def valid_extensions : List (List Char) :=
  [".png".data, ".jpg".data, ".jpeg".data, ".bmp".data, ".tif".data, ".tiff".data]

/-- Split a filename at its last dot: `some (before, fromDot)`, or `none`
when the name has no dot. -/
def lastDotSplit : List Char → Option (List Char × List Char)
  | [] => none
  | c :: cs =>
    match lastDotSplit cs with
    | some p => some (c :: p.1, p.2)
    | none => if c = '.' then some ([], c :: cs) else none

/-- The extension of a filename as `os.path.splitext` computes it: from
the last dot, unless every character before that dot is itself a dot
(leading dots do not start an extension). -/
def splitextExt (f : List Char) : List Char :=
  match lastDotSplit f with
  | none => []
  | some (p, e) => if p.all (· = '.') then [] else e

/-- The extension-membership test of `get_grouped_images`:
`os.path.splitext(f)[1].lower() in valid_extensions`. -/
def extOk (f : List Char) : Bool :=
  decide (((splitextExt f).map Char.toLower) ∈ valid_extensions)

/-- Model of `os.path.join` for a directory and a plain entry name. -/
def joinPath (d f : String) : String := d ++ "/" ++ f

/-- One directory's contribution to the catalog: skip a missing
directory, otherwise keep each listed file that has a recognized image
extension and a parseable name, as a record
`(camera_id, iteration, full_path)` in listing order. -/
def scanDir (fs : String → Option (List String)) (d : String) :
    List (String × Nat × String) :=
  match fs d with
  | none => []
  | some files =>
    files.filterMap fun f =>
      if extOk f.data then
        (parse_filename f).map fun ci => (ci.1, ci.2, joinPath d f)
      else none

/-- All records collected by `get_grouped_images`, in scan order. -/
def scanRecords (fs : String → Option (List String)) (dirs : List String) :
    List (String × Nat × String) :=
  dirs.flatMap (scanDir fs)

/-- One group of the catalog built by `get_grouped_images`: appending to
a `defaultdict(list)` keyed by `camera_id` keeps, for each key, its
records in scan order. -/
def get_grouped_images (fs : String → Option (List String)) (dirs : List String)
    (camera_id : String) : List (Nat × String) :=
  (scanRecords fs dirs).filterMap fun r => if r.1 = camera_id then some r.2 else none

/-- The directories for which `get_grouped_images` prints
`Warning: Directory not found` and continues. -/
def scanWarnings (fs : String → Option (List String)) (dirs : List String) :
    List String :=
  dirs.filter fun d => (fs d).isNone

/-! ### Stable sort (Python's in-place `list.sort(key=lambda x: x[0])`) -/

/-- Insert a record into an already-sorted list, after every record with
a strictly smaller key and before the first record whose key is not
smaller — so earlier-scanned records stay first on equal keys. -/
def insertRec (x : Nat × String) : List (Nat × String) → List (Nat × String)
  | [] => [x]
  | y :: ys => if y.1 < x.1 then y :: insertRec x ys else x :: y :: ys

/-- Stable ascending sort by the iteration number, the model of
`image_data_list.sort(key=lambda x: x[0])`. -/
def sortRecords : List (Nat × String) → List (Nat × String)
  | [] => []
  | x :: xs => insertRec x (sortRecords xs)

/-- Insertion step for sorting strings, as `sorted` on `dict` keys. -/
def insertStr (x : String) : List String → List String
  | [] => [x]
  | y :: ys => if y < x then y :: insertStr x ys else x :: y :: ys

/-- Lexicographic sort of camera ids, the model of `sorted(grouped_data.keys())`. -/
def sortStrings : List String → List String
  | [] => []
  | x :: xs => insertStr x (sortStrings xs)

/-! ### Video encoder (`create_video_for_camera`) -/

/-- A decoded image: its pixel dimensions and an opaque content tag.
`cv2` reports `shape = (height, width, layers)`. -/
structure Image where
  height : Nat
  width : Nat
  content : Nat
deriving DecidableEq, Repr

/-- Model of `cv2.resize(img, size)` with `size = (width, height)`: the result has
the requested dimensions (stretch semantics, no letterboxing). -/
def cvResize (img : Image) (size : Nat × Nat) : Image :=
  { height := size.2, width := size.1, content := img.content }

/-- The encoder's write loop: for each path read the image; an unreadable
path is skipped (`continue`); a readable image is resized to `size` when
its dimensions differ, then written. Returns the frames written, in
order. -/
def writeFrames (read : String → Option Image) (size : Nat × Nat) :
    List String → List Image
  | [] => []
  | p :: rest =>
    match read p with
    | none => writeFrames read size rest
    | some img =>
      (if (img.width, img.height) ≠ size then cvResize img size else img) ::
        writeFrames read size rest

/-- Outcome of one `create_video_for_camera` call: early return on an
empty path list (no file), early return when the first path is unreadable
(no file), or a finalized video of the given frame size and frames. -/
inductive EncodeResult where
  | emptySkip : EncodeResult
  | firstReadError : EncodeResult
  | video (size : Nat × Nat) (frames : List Image) : EncodeResult
deriving DecidableEq, Repr

/-- Model of `create_video_for_camera` from `utils/video_syn.py`: sort the records
by iteration, keep the paths; return early if there are none; read the
first path for the canonical size, return early with an error if it is
unreadable; otherwise write every readable frame at the canonical size. -/
def create_video_for_camera (read : String → Option Image)
    (image_data_list : List (Nat × String)) : EncodeResult :=
  let image_paths := (sortRecords image_data_list).map Prod.snd
  match image_paths with
  | [] => .emptySkip
  | p0 :: _ =>
    match read p0 with
    | none => .firstReadError
    | some first_img =>
      let size := (first_img.width, first_img.height)
      .video size (writeFrames read size image_paths)

/-- The state of the borrowed list `grouped_data[camera_id]` after
`create_video_for_camera` returns: `image_data_list.sort(...)` sorted it
in place before any early return. -/
def image_data_after (image_data_list : List (Nat × String)) :
    List (Nat × String) :=
  sortRecords image_data_list

/-- The camera ids `main` iterates over: the distinct group keys of the
catalog, sorted lexicographically. -/
def sorted_camera_ids (fs : String → Option (List String)) (dirs : List String) :
    List String :=
  sortStrings ((scanRecords fs dirs).map (·.1)).dedup

/-- The per-camera outcomes of `main`'s loop: one independent
`create_video_for_camera` call per camera id, in order. -/
def mainRun (fs : String → Option (List String)) (read : String → Option Image)
    (dirs : List String) : List (String × EncodeResult) :=
  (sorted_camera_ids fs dirs).map fun cid =>
    (cid, create_video_for_camera read (get_grouped_images fs dirs cid))

/-! ### Policy B (ratio interleave) -/

/-- Modelled from the spec: Policy B's ratio interleave of two ordered
lists with ratio `a : 1` (no Policy B code exists under `src/`; §4.3 of
the design describes it). Repeatedly take up to `a` items from `A`, then
one item from `B` if available; stop as soon as either list is exhausted
at the top of a round, silently dropping the remainder of the other
list. -/
def ratioInterleave {α : Type} (a : Nat) : List α → List α → List α
  | _, [] => []
  | [], _ :: _ => []
  | x :: xs, b :: bs =>
    (x :: xs).take a ++ b :: ratioInterleave a ((x :: xs).drop a) bs

instance recKeyLtAntisymm : IsAntisymm (Nat × String) (fun a b => a.1 < b.1) :=
  ⟨fun _ _ h h' => absurd (Nat.lt_trans h h') (Nat.lt_irrefl _)⟩

/-! ### Test fixtures -/

/-- A concrete filesystem listing used by witnesses: a `train` directory
with two frame images (listed out of order) and a stray text file, and a
`test` directory with two more frames. -/
def sampleListing : String → Option (List String) := fun d =>
  if d = "train" then
    some ["pano_camera0_frame_00002.png", "pano_camera0_frame_00001.png", "notes.txt"]
  else if d = "test" then
    some ["pano_camera0_frame_00003.png", "pano_camera1_frame_00001.png"]
  else none

/-- The same directory contents as `sampleListing`, returned in a
different listing order. -/
def sampleListingPerm : String → Option (List String) := fun d =>
  if d = "train" then
    some ["pano_camera0_frame_00001.png", "notes.txt", "pano_camera0_frame_00002.png"]
  else if d = "test" then
    some ["pano_camera1_frame_00001.png", "pano_camera0_frame_00003.png"]
  else none

/-- A concrete image decoder: path `a` decodes to a 100×200 image
(width×height), path `b` to 50×100, everything else is unreadable. -/
def sampleRead : String → Option Image := fun p =>
  if p = "a" then some ⟨200, 100, 0⟩
  else if p = "b" then some ⟨100, 50, 1⟩
  else none

/-! ### Parser lemmas -/

/-- Spec-side description of one occurrence of the pattern
`pano_camera<digits>_frame_<digits>` inside `s`, starting after `pre`. -/
def PatOccur (s pre ds es suf : List Char) : Prop :=
  s = pre ++ "pano_camera".data ++ ds ++ "_frame_".data ++ es ++ suf ∧
  ds ≠ [] ∧ es ≠ [] ∧ (∀ c ∈ ds, c.isDigit = true) ∧ (∀ c ∈ es, c.isDigit = true)

theorem dropLit_self (lit s : List Char) : dropLit lit (lit ++ s) = some s := by
  induction lit with
  | nil => rfl
  | cons c cs ih => simp [dropLit, ih]

theorem dropLit_sound {lit s r : List Char} (h : dropLit lit s = some r) :
    s = lit ++ r := by
  induction lit generalizing s with
  | nil => simpa [dropLit] using h
  | cons c cs ih =>
    cases s with
    | nil => simp [dropLit] at h
    | cons a as =>
      by_cases hc : a = c
      · subst hc
        simp only [dropLit, if_pos rfl] at h
        simpa using ih h
      · simp [dropLit, hc] at h

theorem takeDigits_split (s : List Char) :
    s = (takeDigits s).1 ++ (takeDigits s).2 := by
  induction s with
  | nil => rfl
  | cons a as ih =>
    by_cases hd : a.isDigit
    · simpa [takeDigits, hd] using ih
    · simp [takeDigits, hd]

theorem takeDigits_digits (s : List Char) :
    ∀ c ∈ (takeDigits s).1, c.isDigit = true := by
  induction s with
  | nil => simp [takeDigits]
  | cons a as ih =>
    by_cases hd : a.isDigit
    · intro c hc
      simp only [takeDigits, if_pos hd] at hc
      rcases List.mem_cons.mp hc with rfl | hc
      · exact hd
      · exact ih c hc
    · simp [takeDigits, hd]

theorem takeDigits_rest (s : List Char) :
    ∀ c, (takeDigits s).2.head? = some c → c.isDigit = false := by
  induction s with
  | nil => simp [takeDigits]
  | cons a as ih =>
    by_cases hd : a.isDigit
    · simpa [takeDigits, hd] using ih
    · intro c hc
      simp only [takeDigits, if_neg hd, List.head?] at hc
      cases hc
      exact Bool.eq_false_iff.mpr hd

theorem takeDigits_digits_append {ds : List Char} (r : List Char)
    (h : ∀ c ∈ ds, c.isDigit = true) :
    takeDigits (ds ++ r) = (ds ++ (takeDigits r).1, (takeDigits r).2) := by
  induction ds with
  | nil => simp
  | cons c cs ih =>
    have hc : c.isDigit = true := h c (List.mem_cons_self c cs)
    have hcs : ∀ x ∈ cs, x.isDigit = true := fun x hx => h x (List.mem_cons_of_mem c hx)
    simp [takeDigits, hc, ih hcs]

theorem takeDigits_nondigit_head {r : List Char}
    (h : ∀ c, r.head? = some c → c.isDigit = false) :
    takeDigits r = ([], r) := by
  cases r with
  | nil => rfl
  | cons c cs =>
    have := h c rfl
    simp [takeDigits, this]

/-- Computation of `matchAt` on an exact pattern occurrence at the start:
the first digit run is recovered verbatim, the second extends greedily
into any digits that begin `suf`. -/
theorem matchAt_occur {ds es suf : List Char}
    (hds : ds ≠ []) (hes : es ≠ [])
    (hd : ∀ c ∈ ds, c.isDigit = true) (he : ∀ c ∈ es, c.isDigit = true) :
    matchAt ("pano_camera".data ++ ds ++ "_frame_".data ++ es ++ suf)
      = some (ds, es ++ (takeDigits suf).1) := by
  have hre : "pano_camera".data ++ ds ++ "_frame_".data ++ es ++ suf
      = "pano_camera".data ++ (ds ++ ("_frame_".data ++ (es ++ suf))) := by
    simp [List.append_assoc]
  have hud : takeDigits ("_frame_".data ++ (es ++ suf))
      = ([], "_frame_".data ++ (es ++ suf)) :=
    takeDigits_nondigit_head (by intro c hc; cases hc; rfl)
  have h1 : takeDigits (ds ++ ("_frame_".data ++ (es ++ suf)))
      = (ds, "_frame_".data ++ (es ++ suf)) := by
    rw [takeDigits_digits_append _ hd, hud]
    simp
  have h2 : takeDigits (es ++ suf) = (es ++ (takeDigits suf).1, (takeDigits suf).2) :=
    takeDigits_digits_append _ he
  unfold matchAt
  rw [hre, dropLit_self]
  simp only [Option.some_bind, h1, hds, if_neg, dropLit_self, h2]
  simp [hds, hes]

theorem matchAt_sound {s : List Char} {ds es : List Char}
    (h : matchAt s = some (ds, es)) :
    ∃ suf, PatOccur s [] ds es suf ∧ (∀ c, suf.head? = some c → c.isDigit = false) := by
  unfold matchAt at h
  rcases h1 : dropLit "pano_camera".data s with _ | r1
  · rw [h1] at h; exact absurd h (by simp)
  rw [h1] at h
  simp only [Option.some_bind] at h
  by_cases hds1 : (takeDigits r1).1 = []
  · rw [if_pos hds1] at h; exact absurd h (by simp)
  rw [if_neg hds1] at h
  rcases h3 : dropLit "_frame_".data (takeDigits r1).2 with _ | r3
  · rw [h3] at h; exact absurd h (by simp)
  rw [h3] at h
  simp only [Option.some_bind] at h
  by_cases hes1 : (takeDigits r3).1 = []
  · rw [if_pos hes1] at h; exact absurd h (by simp)
  rw [if_neg hes1] at h
  simp only [Option.some.injEq, Prod.mk.injEq] at h
  obtain ⟨hds, hes⟩ := h
  subst hds
  subst hes
  refine ⟨(takeDigits r3).2, ⟨?_, hds1, hes1, takeDigits_digits r1, takeDigits_digits r3⟩,
    takeDigits_rest r3⟩
  have e1 : s = "pano_camera".data ++ r1 := dropLit_sound h1
  have e2 : r1 = (takeDigits r1).1 ++ (takeDigits r1).2 := takeDigits_split r1
  have e3 : (takeDigits r1).2 = "_frame_".data ++ r3 := dropLit_sound h3
  have e4 : r3 = (takeDigits r3).1 ++ (takeDigits r3).2 := takeDigits_split r3
  conv_lhs => rw [e1, e2, e3, e4]
  simp [List.append_assoc]

theorem patOccur_nil_false {pre ds es suf : List Char}
    (h : PatOccur [] pre ds es suf) : False := by
  have := congrArg List.length h.1
  simp [List.length_append] at this
  omega

/-- An occurrence starting at the very front makes `matchAt` succeed. -/
theorem matchAt_of_occur_nil {s ds es suf : List Char}
    (h : PatOccur s [] ds es suf) : matchAt s ≠ none := by
  obtain ⟨h1, hds, hes, hd, he⟩ := h
  have hs : s = "pano_camera".data ++ ds ++ "_frame_".data ++ es ++ suf := by
    simpa using h1
  rw [hs, matchAt_occur hds hes hd he]
  simp

/-- Soundness of the leftmost search: a successful `searchPat` comes from
an occurrence, the second capture is digit-greedy (the remaining suffix
does not start with a digit), and no occurrence starts earlier. -/
theorem searchPat_sound {s ds es : List Char} (h : searchPat s = some (ds, es)) :
    ∃ pre suf, PatOccur s pre ds es suf ∧
      (∀ c, suf.head? = some c → c.isDigit = false) ∧
      ∀ pre' ds' es' suf', PatOccur s pre' ds' es' suf' → pre.length ≤ pre'.length := by
  induction s with
  | nil => simp [searchPat] at h
  | cons c cs ih =>
    unfold searchPat at h
    rcases hm : matchAt (c :: cs) with _ | r <;> rw [hm] at h
    · simp only [] at h
      obtain ⟨pre, suf, hocc, hnd, hleft⟩ := ih h
      refine ⟨c :: pre, suf, ⟨by simp [hocc.1], hocc.2.1, hocc.2.2.1, hocc.2.2.2⟩, hnd, ?_⟩
      rintro pre' ds' es' suf' hocc'
      cases pre' with
      | nil => exact absurd hm (matchAt_of_occur_nil hocc')
      | cons c' pre'' =>
        have he := hocc'.1
        simp only [List.cons_append, List.append_assoc] at he
        have htail : cs = pre'' ++ "pano_camera".data ++ ds' ++ "_frame_".data ++ es' ++ suf' := by
          have := (List.cons.injEq _ _ _ _).mp he
          simp [this.2, List.append_assoc]
        have : PatOccur cs pre'' ds' es' suf' := ⟨htail, hocc'.2⟩
        simpa using Nat.succ_le_succ (hleft pre'' ds' es' suf' this)
    · simp only [Option.some.injEq] at h
      subst h
      obtain ⟨suf, hocc, hnd⟩ := matchAt_sound hm
      exact ⟨[], suf, hocc, hnd, fun _ _ _ _ _ => Nat.zero_le _⟩

/-- A failed search means no occurrence of the pattern anywhere in `s`. -/
theorem searchPat_none {s : List Char} (h : searchPat s = none) :
    ¬ ∃ pre ds es suf, PatOccur s pre ds es suf := by
  induction s with
  | nil => rintro ⟨pre, ds, es, suf, hocc⟩; exact patOccur_nil_false hocc
  | cons c cs ih =>
    unfold searchPat at h
    rcases hm : matchAt (c :: cs) with _ | r <;> rw [hm] at h
    · simp only [] at h
      rintro ⟨pre, ds, es, suf, hocc⟩
      cases pre with
      | nil => exact matchAt_of_occur_nil hocc hm
      | cons c' pre'' =>
        have he := hocc.1
        simp only [List.cons_append, List.append_assoc] at he
        have htail : cs = pre'' ++ "pano_camera".data ++ ds ++ "_frame_".data ++ es ++ suf := by
          have := (List.cons.injEq _ _ _ _).mp he
          simp [this.2, List.append_assoc]
        exact ih h ⟨pre'', ds, es, suf, htail, hocc.2⟩
    · simp at h

/-! ### Sort lemmas -/

theorem insertRec_perm (x : Nat × String) (l : List (Nat × String)) :
    (insertRec x l).Perm (x :: l) := by
  induction l with
  | nil => exact List.Perm.refl _
  | cons y ys ih =>
    by_cases h : y.1 < x.1
    · simp only [insertRec, if_pos h]
      exact (ih.cons y).trans (List.Perm.swap x y ys)
    · simp [insertRec, if_neg h]

theorem sortRecords_perm (l : List (Nat × String)) : (sortRecords l).Perm l := by
  induction l with
  | nil => exact List.Perm.refl _
  | cons x xs ih => exact (insertRec_perm x (sortRecords xs)).trans (ih.cons x)

theorem insertRec_sorted {l : List (Nat × String)} (x : Nat × String)
    (h : l.Pairwise fun a b => a.1 ≤ b.1) :
    (insertRec x l).Pairwise fun a b => a.1 ≤ b.1 := by
  induction l with
  | nil => simp [insertRec]
  | cons y ys ih =>
    rcases List.pairwise_cons.mp h with ⟨hy, hys⟩
    by_cases hlt : y.1 < x.1
    · simp only [insertRec, if_pos hlt]
      refine List.pairwise_cons.mpr ⟨?_, ih hys⟩
      intro z hz
      rcases List.mem_cons.mp ((insertRec_perm x ys).mem_iff.mp hz) with rfl | hz
      · exact le_of_lt hlt
      · exact hy z hz
    · simp only [insertRec, if_neg hlt]
      refine List.pairwise_cons.mpr ⟨?_, h⟩
      intro z hz
      rcases List.mem_cons.mp hz with rfl | hz
      · exact le_of_not_lt hlt
      · exact le_trans (le_of_not_lt hlt) (hy z hz)

theorem sortRecords_sorted (l : List (Nat × String)) :
    (sortRecords l).Pairwise fun a b => a.1 ≤ b.1 := by
  induction l with
  | nil => simp [sortRecords]
  | cons x xs ih => exact insertRec_sorted x ih

/-- Stability of the insertion step: inserting `x` does not change the
subsequence of entries carrying any fixed key, relative to putting `x`
first. -/
theorem insertRec_filter (x : Nat × String) (l : List (Nat × String)) (k : Nat) :
    (insertRec x l).filter (fun r => r.1 = k) = (x :: l).filter (fun r => r.1 = k) := by
  induction l with
  | nil => rfl
  | cons y ys ih =>
    by_cases hlt : y.1 < x.1
    · simp only [insertRec, if_pos hlt]
      by_cases hx : x.1 = k
      · have hy : ¬ (y.1 = k) := by omega
        simp [List.filter_cons, hx, hy, ih]
      · simp [List.filter_cons, hx, ih]
    · simp [insertRec, if_neg hlt]

/-- Stability of the sort: for each key, the records carrying that key
appear in the sorted list exactly in their original order. -/
theorem sortRecords_filter (l : List (Nat × String)) (k : Nat) :
    (sortRecords l).filter (fun r => r.1 = k) = l.filter (fun r => r.1 = k) := by
  induction l with
  | nil => rfl
  | cons x xs ih =>
    rw [show sortRecords (x :: xs) = insertRec x (sortRecords xs) from rfl,
      insertRec_filter]
    simp [List.filter_cons, ih]

theorem sortRecords_eq_self_of_sorted {l : List (Nat × String)}
    (h : l.Pairwise fun a b => a.1 ≤ b.1) : sortRecords l = l := by
  induction l with
  | nil => rfl
  | cons x xs ih =>
    rcases List.pairwise_cons.mp h with ⟨hx, hxs⟩
    rw [show sortRecords (x :: xs) = insertRec x (sortRecords xs) from rfl, ih hxs]
    cases xs with
    | nil => rfl
    | cons y ys =>
      have : ¬ (y.1 < x.1) := not_lt.mpr (hx y (List.mem_cons_self y ys))
      simp [insertRec, this]

/-- Two permutations of the same records with pairwise-distinct keys have
the same sorted form: the sort output does not depend on scan order when
there are no key ties. -/
theorem sortRecords_eq_of_perm {l₁ l₂ : List (Nat × String)}
    (hp : l₁.Perm l₂) (hnd : (l₁.map Prod.fst).Nodup) :
    sortRecords l₁ = sortRecords l₂ := by
  have hp' : (sortRecords l₁).Perm (sortRecords l₂) :=
    ((sortRecords_perm l₁).trans hp).trans (sortRecords_perm l₂).symm
  have hnd1 : ((sortRecords l₁).map Prod.fst).Nodup :=
    (((sortRecords_perm l₁).map Prod.fst).nodup_iff).mpr hnd
  have hnd2 : ((sortRecords l₂).map Prod.fst).Nodup :=
    ((hp'.map Prod.fst).nodup_iff).mp hnd1
  have key : ∀ m : List (Nat × String), (m.map Prod.fst).Nodup →
      (m.Pairwise fun a b => a.1 ≤ b.1) → m.Pairwise fun a b => a.1 < b.1 := by
    intro m hm hs
    have hne : m.Pairwise fun a b => a.1 ≠ b.1 := List.pairwise_map.mp hm
    exact (hs.and hne).imp fun h => lt_of_le_of_ne h.1 h.2
  exact List.eq_of_perm_of_sorted hp'
    (key _ hnd1 (sortRecords_sorted l₁)) (key _ hnd2 (sortRecords_sorted l₂))

/-! ### Encoder lemmas -/

theorem writeFrames_eq_filterMap (read : String → Option Image) (size : Nat × Nat)
    (paths : List String) :
    writeFrames read size paths = paths.filterMap fun p => (read p).map fun img =>
      if (img.width, img.height) ≠ size then cvResize img size else img := by
  induction paths with
  | nil => rfl
  | cons p rest ih => cases h : read p <;> simp [writeFrames, h, ih]

/-- Every frame the write loop emits has exactly the canonical size. -/
theorem writeFrames_dims (read : String → Option Image) (size : Nat × Nat)
    (paths : List String) :
    ∀ f ∈ writeFrames read size paths, (f.width, f.height) = size := by
  induction paths with
  | nil => simp [writeFrames]
  | cons p rest ih =>
    intro f hf
    rcases h : read p with _ | img
    · rw [writeFrames, h] at hf
      exact ih f hf
    · rw [writeFrames, h] at hf
      rcases List.mem_cons.mp hf with rfl | hf
      · by_cases hsz : (img.width, img.height) = size
        · simp [hsz]
        · simp [hsz, cvResize]
      · exact ih f hf

/-! ### Catalog lemmas -/

theorem scanDir_missing {fs : String → Option (List String)} {d : String}
    (h : fs d = none) : scanDir fs d = [] := by
  unfold scanDir
  rw [h]

/-- Missing directories contribute nothing: the scan over all
directories equals the scan over the existing ones. -/
theorem scanRecords_skip_missing (fs : String → Option (List String))
    (dirs : List String) :
    scanRecords fs dirs = scanRecords fs (dirs.filter fun d => (fs d).isSome) := by
  induction dirs with
  | nil => rfl
  | cons d rest ih =>
    rcases h : fs d with _ | files
    · have hs : (fs d).isSome = false := by rw [h]; rfl
      calc scanRecords fs (d :: rest)
          = scanDir fs d ++ scanRecords fs rest := rfl
        _ = scanRecords fs rest := by rw [scanDir_missing h, List.nil_append]
        _ = scanRecords fs (rest.filter fun d' => (fs d').isSome) := ih
        _ = scanRecords fs ((d :: rest).filter fun d' => (fs d').isSome) := by
            rw [List.filter_cons, hs]
            simp
    · have hs : (fs d).isSome = true := by rw [h]; rfl
      calc scanRecords fs (d :: rest)
          = scanDir fs d ++ scanRecords fs rest := rfl
        _ = scanDir fs d ++ scanRecords fs (rest.filter fun d' => (fs d').isSome) := by
            rw [ih]
        _ = scanRecords fs ((d :: rest).filter fun d' => (fs d').isSome) := by
            rw [List.filter_cons, hs]
            rfl

theorem scanDir_perm {fs fs' : String → Option (List String)} {d : String}
    (h : (fs d = none ∧ fs' d = none) ∨
      ∃ l l', fs d = some l ∧ fs' d = some l' ∧ l.Perm l') :
    (scanDir fs d).Perm (scanDir fs' d) := by
  rcases h with ⟨h1, h2⟩ | ⟨l, l', h1, h2, hp⟩
  · rw [scanDir_missing h1, scanDir_missing h2]
  · unfold scanDir
    rw [h1, h2]
    exact hp.filterMap _

theorem scanRecords_perm_of {fs fs' : String → Option (List String)}
    {dirs : List String}
    (h : ∀ d ∈ dirs, (fs d = none ∧ fs' d = none) ∨
      ∃ l l', fs d = some l ∧ fs' d = some l' ∧ l.Perm l') :
    (scanRecords fs dirs).Perm (scanRecords fs' dirs) := by
  induction dirs with
  | nil => exact List.Perm.refl _
  | cons d rest ih =>
    simp only [scanRecords, List.flatMap_cons]
    exact (scanDir_perm (h d (List.mem_cons_self d rest))).append
      (ih fun d' hd' => h d' (List.mem_cons_of_mem d hd'))

theorem get_grouped_images_perm_of {fs fs' : String → Option (List String)}
    {dirs : List String}
    (h : ∀ d ∈ dirs, (fs d = none ∧ fs' d = none) ∨
      ∃ l l', fs d = some l ∧ fs' d = some l' ∧ l.Perm l')
    (cid : String) :
    (get_grouped_images fs dirs cid).Perm (get_grouped_images fs' dirs cid) :=
  (scanRecords_perm_of h).filterMap _

/-! ### Interleave lemmas -/

/-- Structure of the ratio interleave: it consumes a prefix of each list
(`k` items of `A`, `l` of `B`), at least one of them entirely; the
output is exactly those two prefixes interleaved, so it keeps each
list's internal order and nothing else. -/
theorem ratioInterleave_consumption {α : Type} (a : Nat) (B A : List α) :
    ∃ k l, k ≤ A.length ∧ l ≤ B.length ∧ (k = A.length ∨ l = B.length) ∧
      (A.take k).Sublist (ratioInterleave a A B) ∧
      (B.take l).Sublist (ratioInterleave a A B) ∧
      (ratioInterleave a A B).Perm (A.take k ++ B.take l) := by
  induction B generalizing A with
  | nil =>
    have hmerged : ratioInterleave a A [] = [] := by
      cases A <;> rfl
    exact ⟨0, 0, Nat.zero_le _, Nat.zero_le _, Or.inr rfl,
      by simp [hmerged], by simp [hmerged], by simp [hmerged]⟩
  | cons b bs ih =>
    cases A with
    | nil =>
      exact ⟨0, 0, Nat.le_refl _, Nat.zero_le _, Or.inl rfl,
        by simp [ratioInterleave], by simp [ratioInterleave], by simp [ratioInterleave]⟩
    | cons x xs =>
      obtain ⟨k', l', hk', hl', hex, hsa, hsb, hperm⟩ := ih ((x :: xs).drop a)
      have hmerged : ratioInterleave a (x :: xs) (b :: bs)
          = (x :: xs).take a ++ b :: ratioInterleave a ((x :: xs).drop a) bs := rfl
      have hlt : ((x :: xs).take a).length = min a (x :: xs).length := by
        simp [List.length_take]
      have hld : ((x :: xs).drop a).length = (x :: xs).length - a := by
        simp [List.length_drop]
      rw [hld] at hk'
      rw [hld] at hex
      have htake : (x :: xs).take (((x :: xs).take a).length + k')
          = (x :: xs).take a ++ ((x :: xs).drop a).take k' := by
        rcases Nat.le_total a (x :: xs).length with h | h
        · rw [hlt, Nat.min_eq_left h]
          exact List.take_add _ a k'
        · have hk0 : k' = 0 := by omega
          subst hk0
          rw [hlt, Nat.min_eq_right h, Nat.add_zero, List.take_of_length_le h,
            List.drop_eq_nil_of_le h, List.take_of_length_le (Nat.le_refl _)]
          simp
      refine ⟨((x :: xs).take a).length + k', l' + 1, ?_, ?_, ?_, ?_, ?_, ?_⟩
      · rw [hlt]
        rcases Nat.le_total a (x :: xs).length with h | h
        · rw [Nat.min_eq_left h]; omega
        · rw [Nat.min_eq_right h]; omega
      · simpa using hl'
      · rcases hex with h | h
        · left
          rw [hlt]
          rcases Nat.le_total a (x :: xs).length with h2 | h2
          · rw [Nat.min_eq_left h2]; omega
          · rw [Nat.min_eq_right h2]; omega
        · right
          simp [h]
      · rw [hmerged, htake]
        exact List.Sublist.append_left (hsa.cons b) _
      · rw [hmerged, List.take_succ_cons]
        exact (List.Sublist.cons₂ b hsb).trans
          (List.sublist_append_right ((x :: xs).take a) _)
      · rw [hmerged, List.take_succ_cons, htake, List.append_assoc]
        refine List.Perm.append_left _ ?_
        exact (hperm.cons b).trans List.perm_middle.symm

theorem searchPat_of_matchAt {s : List Char} {r : List Char × List Char}
    (h : matchAt s = some r) : searchPat s = some r := by
  cases s with
  | nil =>
    have hnil : matchAt ([] : List Char) = none := by decide
    rw [hnil] at h
    exact absurd h (by simp)
  | cons c cs =>
    unfold searchPat
    rw [h]

/-! ## Claim theorems -/

/-- Claim C1, counterexample: on `pano_camera0_frame_00001.png` the
parser returns frame index `1`; formatting `1` back to a string yields
`1`, not the original digit run `00001`, so the round trip is not
lossless for the frame-index digits (leading zeros are dropped by
`int`). -/
theorem parse_format_leading_zeros_counterexample :
    parse_filename "pano_camera0_frame_00001.png" = some ("pano_camera0", 1) ∧
      Nat.repr 1 ≠ "00001" :=
  ⟨by decide, by decide⟩

/-- Claim C1 (amended): for every filename of the expected shape, the
parser returns the group key `pano_camera<ID digits>` with the ID digit
run reproduced verbatim, and the numeric value of the frame-index digit
run — so the round trip is lossless for the ID digits and lossless up to
leading zeros (as a number) for the frame index. -/
theorem parse_filename_round_trip (ds es ext : List Char)
    (hds : ds ≠ []) (hes : es ≠ [])
    (hd : ∀ c ∈ ds, c.isDigit = true) (he : ∀ c ∈ es, c.isDigit = true)
    (hext : ∀ c, ext.head? = some c → c.isDigit = false) :
    parse_filename (String.mk ("pano_camera".data ++ ds ++ "_frame_".data ++ es ++ ext))
      = some (String.mk ("pano_camera".data ++ ds), digitsVal es) := by
  have hm : matchAt ("pano_camera".data ++ ds ++ "_frame_".data ++ es ++ ext)
      = some (ds, es) := by
    rw [matchAt_occur hds hes hd he, takeDigits_nondigit_head hext]
    simp
  unfold parse_filename
  rw [show (String.mk ("pano_camera".data ++ ds ++ "_frame_".data ++ es ++ ext)).data
      = "pano_camera".data ++ ds ++ "_frame_".data ++ es ++ ext from rfl]
  rw [searchPat_of_matchAt hm]
  rfl

theorem parse_filename_round_trip_witness :
    parse_filename (String.mk
        ("pano_camera".data ++ ['7'] ++ "_frame_".data ++ ['0', '1', '2'] ++ ".png".data))
      = some (String.mk ("pano_camera".data ++ ['7']), digitsVal ['0', '1', '2']) :=
  parse_filename_round_trip ['7'] ['0', '1', '2'] ".png".data
    (by decide) (by decide) (by decide) (by decide)
    (by intro c hc; cases hc; rfl)

/-- Claim C2: Policy A's per-group path sequence is the stable ascending
sort of the group's records by `order_key` with the keys dropped: the
sorted records are non-decreasing in the key, the path list has exactly
one entry per collected record, and on equal keys the records keep their
scan order (the per-key subsequences are untouched). -/
theorem policyA_order_length_stability (image_data_list : List (Nat × String)) :
    ((sortRecords image_data_list).Pairwise fun a b => a.1 ≤ b.1) ∧
    ((sortRecords image_data_list).map Prod.snd).length = image_data_list.length ∧
    ∀ k, (sortRecords image_data_list).filter (fun r => r.1 = k)
        = image_data_list.filter fun r => r.1 = k :=
  ⟨sortRecords_sorted _,
   by rw [List.length_map, (sortRecords_perm _).length_eq],
   sortRecords_filter _⟩

/-- Claim C5, counterexample: the catalog entry for `pano_camera0` is
mutated by `create_video_for_camera` — Python's in-place `list.sort`
reorders the very list stored in the catalog, so after encoding the
entry differs from what the scan produced whenever the scan order was
not already sorted. -/
theorem catalog_entry_mutated_counterexample :
    image_data_after (get_grouped_images sampleListing ["train"] "pano_camera0")
      ≠ get_grouped_images sampleListing ["train"] "pano_camera0" := by
  decide

/-- Claim C5 (amended): after `create_video_for_camera` returns, the
borrowed catalog entry holds the same records (a permutation of the scan
output) but sorted in place by `order_key`; it is unchanged only when
the scan already produced it sorted. -/
theorem catalog_entry_after_encoding (l : List (Nat × String)) :
    (image_data_after l).Perm l ∧
    ((image_data_after l).Pairwise fun a b => a.1 ≤ b.1) ∧
    ((l.Pairwise fun a b => a.1 ≤ b.1) → image_data_after l = l) :=
  ⟨sortRecords_perm l, sortRecords_sorted l, sortRecords_eq_self_of_sorted⟩

theorem catalog_entry_after_encoding_witness :
    image_data_after [(1, "a"), (2, "b")] = [(1, "a"), (2, "b")] :=
  (catalog_entry_after_encoding [(1, "a"), (2, "b")]).2.2 (by decide)

/-- Claim C6: a missing source directory is non-fatal: it is recorded as
a warning, and the catalog over all directories equals the catalog over
just the existing directories, so every group contributed by existing
directories is still produced. -/
theorem missing_directory_nonfatal (fs : String → Option (List String))
    (dirs : List String) (d : String) (hd : d ∈ dirs) (hmiss : fs d = none) :
    d ∈ scanWarnings fs dirs ∧
    ∀ cid, get_grouped_images fs dirs cid
      = get_grouped_images fs (dirs.filter fun d' => (fs d').isSome) cid := by
  constructor
  · exact List.mem_filter.mpr ⟨hd, by rw [hmiss]; rfl⟩
  · intro cid
    unfold get_grouped_images
    rw [← scanRecords_skip_missing]

theorem missing_directory_nonfatal_witness :
    "gone" ∈ scanWarnings sampleListing ["train", "gone"] ∧
    ∀ cid, get_grouped_images sampleListing ["train", "gone"] cid
      = get_grouped_images sampleListing
          (["train", "gone"].filter fun d' => (sampleListing d').isSome) cid :=
  missing_directory_nonfatal sampleListing ["train", "gone"] "gone"
    (by decide) (by decide)

/-- Claim C7: with fixed directory contents, permuting every directory
listing leaves each group's final ordered path sequence unchanged,
provided the group carries no duplicate order keys (true ties
excepted). -/
theorem catalog_determinism (fs fs' : String → Option (List String))
    (dirs : List String)
    (hperm : ∀ d ∈ dirs, (fs d = none ∧ fs' d = none) ∨
      ∃ l l', fs d = some l ∧ fs' d = some l' ∧ l.Perm l')
    (cid : String)
    (hnd : ((get_grouped_images fs dirs cid).map Prod.fst).Nodup) :
    (sortRecords (get_grouped_images fs dirs cid)).map Prod.snd
      = (sortRecords (get_grouped_images fs' dirs cid)).map Prod.snd := by
  rw [sortRecords_eq_of_perm (get_grouped_images_perm_of hperm cid) hnd]

theorem catalog_determinism_witness :
    (sortRecords (get_grouped_images sampleListing ["train", "test"] "pano_camera0")).map
        Prod.snd
      = (sortRecords
          (get_grouped_images sampleListingPerm ["train", "test"] "pano_camera0")).map
        Prod.snd :=
  catalog_determinism sampleListing sampleListingPerm ["train", "test"]
    (by
      intro d hd
      rcases List.mem_cons.mp hd with rfl | hd
      · exact Or.inr
          ⟨["pano_camera0_frame_00002.png", "pano_camera0_frame_00001.png", "notes.txt"],
           ["pano_camera0_frame_00001.png", "notes.txt", "pano_camera0_frame_00002.png"],
           by decide, by decide, by decide⟩
      rcases List.mem_cons.mp hd with rfl | hd
      · exact Or.inr
          ⟨["pano_camera0_frame_00003.png", "pano_camera1_frame_00001.png"],
           ["pano_camera1_frame_00001.png", "pano_camera0_frame_00003.png"],
           by decide, by decide, by decide⟩
      · simp at hd)
    "pano_camera0" (by decide)

/-- Claim C3: if the first sorted path is unreadable the call ends in
`firstReadError` (no output file); if it is readable the call produces a
video in which exactly the readable paths contribute one frame each, in
order (each unreadable non-first path drops only its own frame); and
every camera id of the job gets its own independent
`create_video_for_camera` outcome in `main`'s loop, whatever happened to
the others. -/
theorem encoder_read_failure_handling (read : String → Option Image)
    (image_data_list : List (Nat × String)) :
    (∀ p0 rest, (sortRecords image_data_list).map Prod.snd = p0 :: rest →
      read p0 = none →
      create_video_for_camera read image_data_list = EncodeResult.firstReadError) ∧
    (∀ p0 rest img, (sortRecords image_data_list).map Prod.snd = p0 :: rest →
      read p0 = some img →
      create_video_for_camera read image_data_list =
        EncodeResult.video (img.width, img.height)
          ((p0 :: rest).filterMap fun p => (read p).map fun i =>
            if (i.width, i.height) ≠ (img.width, img.height) then
              cvResize i (img.width, img.height) else i)) ∧
    (∀ fs dirs cid, cid ∈ sorted_camera_ids fs dirs →
      (cid, create_video_for_camera read (get_grouped_images fs dirs cid))
        ∈ mainRun fs read dirs) := by
  refine ⟨?_, ?_, ?_⟩
  · intro p0 rest hpaths hread
    simp [create_video_for_camera, hpaths, hread]
  · intro p0 rest img hpaths hread
    simp [create_video_for_camera, hpaths, hread, writeFrames_eq_filterMap]
  · intro fs dirs cid hcid
    unfold mainRun
    exact List.mem_map.mpr ⟨cid, hcid, rfl⟩

theorem encoder_read_failure_handling_witness :
    create_video_for_camera (fun _ => none) [(1, "a")] = EncodeResult.firstReadError ∧
    ("pano_camera0",
        create_video_for_camera (fun _ => none)
          (get_grouped_images sampleListing ["train"] "pano_camera0"))
      ∈ mainRun sampleListing (fun _ => none) ["train"] :=
  ⟨(encoder_read_failure_handling (fun _ => none) [(1, "a")]).1 "a" [] (by decide) rfl,
   (encoder_read_failure_handling (fun _ => none) [(1, "a")]).2.2 sampleListing ["train"]
     "pano_camera0" (by decide)⟩

/-- Claim C4: whenever `create_video_for_camera` produces a video, its
size is the dimensions of the (readable) first image of the sorted
sequence, and every written frame has exactly that size — mismatched
frames were resampled by `cv2.resize` (stretch, no letterboxing). -/
theorem encoder_canonical_resolution (read : String → Option Image)
    (image_data_list : List (Nat × String)) (size : Nat × Nat) (frames : List Image)
    (h : create_video_for_camera read image_data_list = EncodeResult.video size frames) :
    (∀ f ∈ frames, (f.width, f.height) = size) ∧
    ∃ p0 rest img, (sortRecords image_data_list).map Prod.snd = p0 :: rest ∧
      read p0 = some img ∧ size = (img.width, img.height) := by
  simp only [create_video_for_camera] at h
  split at h
  · simp at h
  · rename_i p0 rest hpaths
    split at h
    · simp at h
    · rename_i img hread
      simp only [EncodeResult.video.injEq] at h
      obtain ⟨hsize, hframes⟩ := h
      subst hsize
      subst hframes
      exact ⟨writeFrames_dims read _ _, p0, rest, img, hpaths, hread, rfl⟩

theorem encoder_canonical_resolution_witness :
    (∀ f ∈ [Image.mk 200 100 0, Image.mk 200 100 1], (f.width, f.height) = (100, 200)) ∧
    ∃ p0 rest img, (sortRecords [(1, "a"), (2, "b")]).map Prod.snd = p0 :: rest ∧
      sampleRead p0 = some img ∧ (100, 200) = (img.width, img.height) :=
  encoder_canonical_resolution sampleRead [(1, "a"), (2, "b")] (100, 200)
    [Image.mk 200 100 0, Image.mk 200 100 1] (by decide)

/-- Claim C8: every record in the catalog came from a listed file of one
of the scanned directories whose lowercased extension is a recognized
image extension and whose name parsed successfully — so its group key
has the shape `pano_camera<digits>` — and its path is the join of the
directory and the filename (the order key, a `Nat`, is non-negative by
construction). -/
theorem catalog_record_invariant (fs : String → Option (List String))
    (dirs : List String) (camera_id : String) (it : Nat) (p : String)
    (hmem : (it, p) ∈ get_grouped_images fs dirs camera_id) :
    ∃ d files f, d ∈ dirs ∧ fs d = some files ∧ f ∈ files ∧
      p = joinPath d f ∧
      ((splitextExt f.data).map Char.toLower) ∈ valid_extensions ∧
      parse_filename f = some (camera_id, it) ∧
      ∃ ds, ds ≠ [] ∧ (∀ c ∈ ds, c.isDigit = true) ∧
        camera_id = String.mk ("pano_camera".data ++ ds) := by
  unfold get_grouped_images at hmem
  obtain ⟨r, hr, hif⟩ := List.mem_filterMap.mp hmem
  by_cases hcid : r.1 = camera_id
  case neg =>
    rw [if_neg hcid] at hif
    exact absurd hif (by simp)
  rw [if_pos hcid] at hif
  have hr2 : r.2 = (it, p) := by simpa using hif
  unfold scanRecords at hr
  obtain ⟨d, hd, hrd⟩ := List.mem_flatMap.mp hr
  unfold scanDir at hrd
  rcases hfs : fs d with _ | files
  · rw [hfs] at hrd
    simp at hrd
  rw [hfs] at hrd
  obtain ⟨f, hf, hmap⟩ := List.mem_filterMap.mp hrd
  rcases hext : extOk f.data with _ | _
  · rw [hext] at hmap
    simp at hmap
  rw [hext] at hmap
  simp only [if_true] at hmap
  obtain ⟨ci, hparse, hci⟩ := Option.map_eq_some'.mp hmap
  have hci1 : ci.1 = camera_id := by
    rw [← hcid, ← hci]
  have hci2 : ci.2 = it := by
    have := congrArg Prod.fst (hci ▸ hr2)
    simpa using this
  have hjoin : joinPath d f = p := by
    have := congrArg Prod.snd (hci ▸ hr2)
    simpa using this
  have hparse0 := hparse
  unfold parse_filename at hparse
  obtain ⟨r0, hsp, hgr⟩ := Option.map_eq_some'.mp hparse
  have hsp' : searchPat f.data = some (r0.1, r0.2) := by rw [hsp]
  obtain ⟨pre, suf, hocc, -, -⟩ := searchPat_sound hsp'
  refine ⟨d, files, f, hd, hfs, hf, hjoin.symm, of_decide_eq_true hext, ?_,
    r0.1, hocc.2.1, hocc.2.2.2.1, ?_⟩
  · exact hparse0.trans (congrArg some (Prod.ext hci1 hci2))
  · rw [← hci1, ← hgr]

theorem catalog_record_invariant_witness :
    ∃ d files f, d ∈ ["train"] ∧ sampleListing d = some files ∧ f ∈ files ∧
      "train/pano_camera0_frame_00002.png" = joinPath d f ∧
      ((splitextExt f.data).map Char.toLower) ∈ valid_extensions ∧
      parse_filename f = some ("pano_camera0", 2) ∧
      ∃ ds, ds ≠ [] ∧ (∀ c ∈ ds, c.isDigit = true) ∧
        "pano_camera0" = String.mk ("pano_camera".data ++ ds) :=
  catalog_record_invariant sampleListing ["train"] "pano_camera0" 2
    "train/pano_camera0_frame_00002.png" (by decide)

/-- Claim C9: the ratio interleave consumes a prefix of each input list,
at least one of them entirely (termination exactly on first exhaustion,
the rest silently dropped); the merge is a permutation of those two
prefixes that keeps each list's internal order as a sublist, contains
nothing outside `A ∪ B`, and has length at most `|A| + |B|`. -/
theorem policyB_interleave_spec {α : Type} (a : Nat) (A B : List α) :
    (∀ x ∈ ratioInterleave a A B, x ∈ A ∨ x ∈ B) ∧
    (ratioInterleave a A B).length ≤ A.length + B.length ∧
    ∃ k l, k ≤ A.length ∧ l ≤ B.length ∧ (k = A.length ∨ l = B.length) ∧
      (A.take k).Sublist (ratioInterleave a A B) ∧
      (B.take l).Sublist (ratioInterleave a A B) ∧
      (ratioInterleave a A B).Perm (A.take k ++ B.take l) := by
  obtain ⟨k, l, hk, hl, hex, hsa, hsb, hperm⟩ := ratioInterleave_consumption a B A
  refine ⟨?_, ?_, k, l, hk, hl, hex, hsa, hsb, hperm⟩
  · intro x hx
    rcases List.mem_append.mp (hperm.mem_iff.mp hx) with h | h
    · exact Or.inl (List.take_subset _ _ h)
    · exact Or.inr (List.take_subset _ _ h)
  · rw [hperm.length_eq, List.length_append]
    have h1 : (A.take k).length ≤ A.length := by
      rw [List.length_take]
      exact min_le_right _ _
    have h2 : (B.take l).length ≤ B.length := by
      rw [List.length_take]
      exact min_le_right _ _
    omega

/-- Claim C10: the parser is unanchored: it fails exactly when the
filename contains no `pano_camera<digits>_frame_<digits>` substring; on
success the returned group key and frame value come from the leftmost
such occurrence (with the frame digits taken greedily) — any prefix and
suffix are allowed and no extension is required. -/
theorem parse_filename_unanchored (s : String) :
    (parse_filename s = none ↔ ¬ ∃ pre ds es suf, PatOccur s.data pre ds es suf) ∧
    ∀ g k, parse_filename s = some (g, k) →
      ∃ pre ds es suf, PatOccur s.data pre ds es suf ∧
        g = String.mk ("pano_camera".data ++ ds) ∧ k = digitsVal es ∧
        (∀ c, suf.head? = some c → c.isDigit = false) ∧
        ∀ pre' ds' es' suf', PatOccur s.data pre' ds' es' suf' →
          pre.length ≤ pre'.length := by
  constructor
  · constructor
    · intro h
      unfold parse_filename at h
      rcases hsp : searchPat s.data with _ | r
      · exact searchPat_none hsp
      · rw [hsp] at h
        simp at h
    · intro hno
      unfold parse_filename
      rcases hsp : searchPat s.data with _ | r
      · simp
      · exfalso
        have hsp' : searchPat s.data = some (r.1, r.2) := by rw [hsp]
        obtain ⟨pre, suf, hocc, -, -⟩ := searchPat_sound hsp'
        exact hno ⟨pre, r.1, r.2, suf, hocc⟩
  · intro g k h
    unfold parse_filename at h
    rcases hsp : searchPat s.data with _ | r
    · rw [hsp] at h
      simp at h
    · rw [hsp] at h
      have h' : String.mk ("pano_camera".data ++ r.1) = g ∧ digitsVal r.2 = k := by
        simpa using h
      have hsp' : searchPat s.data = some (r.1, r.2) := by rw [hsp]
      obtain ⟨pre, suf, hocc, hnd, hleft⟩ := searchPat_sound hsp'
      exact ⟨pre, r.1, r.2, suf, hocc, h'.1.symm, h'.2.symm, hnd, hleft⟩

theorem parse_filename_unanchored_witness :
    ∃ pre ds es suf, PatOccur "ab_pano_camera3_frame_042xy".data pre ds es suf ∧
      "pano_camera3" = String.mk ("pano_camera".data ++ ds) ∧
      (42 : Nat) = digitsVal es ∧
      (∀ c, suf.head? = some c → c.isDigit = false) ∧
      ∀ pre' ds' es' suf', PatOccur "ab_pano_camera3_frame_042xy".data pre' ds' es' suf' →
        pre.length ≤ pre'.length :=
  (parse_filename_unanchored "ab_pano_camera3_frame_042xy").2 "pano_camera3" 42 (by decide)

end VideoSyn
